import Mathlib

set_option maxRecDepth 8192

/-!
# worm-scan: shallow embedding of the data-normalization and matching engine

This file embeds the core of `bin/worm-scan.mjs` (a zero-dependency npm
malware scanner) in Lean 4 and proves properties of the embedded functions:

* `parseSemver`  — the semver parser (`parseSemver` in the source),
* `cmpVer`       — the version comparator (`cmpVer`),
* `normalizeMalwareList` — the advisory-feed normalizer,
* `flattenPackages`      — the dependency-tree flattener,
* `scan`         — the matcher producing findings.

Modelling conventions:

* Decoded JSON values are the inductive `JsonV`; JSON numbers are modelled
  as integers (`Int`), which covers every numeric value the claims exercise.
* JavaScript `Map`/`Set` insertion-ordered containers are modelled as
  association lists / duplicate-free lists kept in insertion order.
* `String.prototype.localeCompare` is a host collation function; it is
  modelled as code-point lexicographic comparison (the behaviour the spec
  itself ascribes to the fallback), returning -1/0/1.
* `Number(string)` conversion followed by `Number.isInteger` is modelled
  exactly over the JS string-numeric-literal grammar with exact integer
  arithmetic: grammar-invalid strings give `none` (NaN), non-integral
  values give `none`, and magnitudes at or above `2 ^ 1024` give `none`
  (overflow to `Infinity`, which is not an integer).  Floating-point
  rounding at more than 17 significant digits is idealized away; no input
  in this development is near those regimes.
* Operations that can raise a `TypeError` in JS (method calls on
  non-objects inside the flattener's sort comparator) are modelled in
  `Except String`.
-/

/-- Whitespace recognized by JS `String.prototype.trim` and `ToNumber`
(ECMA-262 StrWhiteSpaceChar: tab, LF, VT, FF, CR, space, NBSP, Ogham space,
en-quad..hair-space, LS, PS, NNBSP, MMSP, ideographic space, BOM). -/
def jsIsWs (c : Char) : Bool :=
  c.toNat == 0x09 || c.toNat == 0x0a || c.toNat == 0x0b || c.toNat == 0x0c ||
  c.toNat == 0x0d || c.toNat == 0x20 || c.toNat == 0xa0 || c.toNat == 0x1680 ||
  (0x2000 ≤ c.toNat && c.toNat ≤ 0x200a) || c.toNat == 0x2028 || c.toNat == 0x2029 ||
  c.toNat == 0x202f || c.toNat == 0x205f || c.toNat == 0x3000 || c.toNat == 0xfeff

/-- Strip JS whitespace from both ends of a character list (JS `trim`). -/
def jsTrim (l : List Char) : List Char :=
  ((l.dropWhile jsIsWs).reverse.dropWhile jsIsWs).reverse

/-- Value of a list of ASCII decimal digits. -/
def digitsToNat (ds : List Char) : Nat :=
  ds.foldl (fun a c => a * 10 + (c.toNat - 48)) 0

/-- ASCII hexadecimal digit test. -/
def isHexDig (c : Char) : Bool :=
  c.isDigit || ('a' ≤ c && c ≤ 'f') || ('A' ≤ c && c ≤ 'F')

/-- Value of a hexadecimal digit. -/
def hexDigVal (c : Char) : Nat :=
  if c.isDigit then c.toNat - 48 else if 'a' ≤ c then c.toNat - 87 else c.toNat - 55

/-- Value of a list of hexadecimal digits. -/
def hexToNat (ds : List Char) : Nat :=
  ds.foldl (fun a c => a * 16 + hexDigVal c) 0

/-- Octal digit test. -/
def isOctDig (c : Char) : Bool := '0' ≤ c && c ≤ '7'

/-- Value of a list of octal digits. -/
def octToNat (ds : List Char) : Nat :=
  ds.foldl (fun a c => a * 8 + (c.toNat - 48)) 0

/-- Binary digit test. -/
def isBinDig (c : Char) : Bool := c == '0' || c == '1'

/-- Value of a list of binary digits. -/
def binToNat (ds : List Char) : Nat :=
  ds.foldl (fun a c => a * 2 + (c.toNat - 48)) 0

/-- A non-negative value rounds to a finite double iff it is below `2 ^ 1024`
(idealized boundary); above that JS yields `Infinity`, not an integer. -/
def capDouble (v : Nat) : Option Int :=
  if v < 2 ^ 1024 then some (v : Int) else none

/-- Decide whether `sgn * (digits as Nat) * 10 ^ scale` is an integer value
of a finite double, returning it exactly.  `digits` are the mantissa digits
(integer part ++ fraction part), `scale` is the decimal exponent minus the
number of fraction digits. -/
def decimalIntValue (sgn : Int) (digits : List Char) (scale : Int) : Option Int :=
  if digitsToNat digits = 0 then some 0
  else if 0 ≤ scale then
    if (1024 : Int) ≤ scale then none
    else match capDouble (digitsToNat digits * 10 ^ scale.toNat) with
      | some v => some (sgn * v)
      | none => none
  else
    if (-scale).toNat ≥ digits.length then none
    else if 10 ^ (-scale).toNat ∣ digitsToNat digits then
      match capDouble (digitsToNat digits / 10 ^ (-scale).toNat) with
      | some v => some (sgn * v)
      | none => none
    else none

/-- Parse the exponent digits of a decimal literal (after the optional sign). -/
def expDigits (sgn : Int) (ds : List Char) : Option Int :=
  if ds ≠ [] ∧ ds.all Char.isDigit then some (sgn * (digitsToNat ds : Int)) else none

/-- Parse an ExponentPart body: optional sign, then one or more digits. -/
def expParse : List Char → Option Int
  | '+' :: ds => expDigits 1 ds
  | '-' :: ds => expDigits (-1) ds
  | ds => expDigits 1 ds

/-- Finish parsing a decimal literal after integer digits `d1`, fraction
digits `d2`, with remaining input `r` (which may only be an exponent part).
Returns mantissa digits and decimal scale. -/
def decFinish (d1 d2 : List Char) (r : List Char) : Option (List Char × Int) :=
  if d1 = [] ∧ d2 = [] then none
  else match r with
  | [] => some (d1 ++ d2, -(d2.length : Int))
  | e :: r2 =>
    if e = 'e' ∨ e = 'E' then
      match expParse r2 with
      | some ev => some (d1 ++ d2, ev - (d2.length : Int))
      | none => none
    else none

/-- Parse a StrUnsignedDecimalLiteral (digits, optional `.` fraction,
optional exponent); the whole input must be consumed. -/
def decParse (cs : List Char) : Option (List Char × Int) :=
  let d1 := cs.takeWhile Char.isDigit
  let r1 := cs.dropWhile Char.isDigit
  match r1 with
  | '.' :: r2 => decFinish d1 (r2.takeWhile Char.isDigit) (r2.dropWhile Char.isDigit)
  | _ => decFinish d1 [] r1

/-- Unsigned part of a decimal string numeric literal; `Infinity` is a valid
literal but not an integer. -/
def unsignedDec (sgn : Int) (cs : List Char) : Option Int :=
  if cs = ['I', 'n', 'f', 'i', 'n', 'i', 't', 'y'] then none
  else match decParse cs with
    | some (digits, scale) => decimalIntValue sgn digits scale
    | none => none

/-- Signed decimal string numeric literal. -/
def signedDec : List Char → Option Int
  | '+' :: rest => unsignedDec 1 rest
  | '-' :: rest => unsignedDec (-1) rest
  | cs => unsignedDec 1 cs

/-- Model of JS `Number(s)` restricted by `Number.isInteger`: `some n` when
the string converts to an integer-valued finite double of exact value `n`,
`none` when it yields NaN, a non-integer, or an infinity. -/
def jsNumCh (l : List Char) : Option Int :=
  let cs := jsTrim l
  match cs with
  | [] => some 0
  | '0' :: x :: rest =>
    if x = 'x' ∨ x = 'X' then
      if rest ≠ [] ∧ rest.all isHexDig then capDouble (hexToNat rest) else none
    else if x = 'o' ∨ x = 'O' then
      if rest ≠ [] ∧ rest.all isOctDig then capDouble (octToNat rest) else none
    else if x = 'b' ∨ x = 'B' then
      if rest ≠ [] ∧ rest.all isBinDig then capDouble (binToNat rest) else none
    else signedDec cs
  | _ => signedDec cs

/-- A parsed version record, `{major, minor, patch}` in the source. -/
structure Semver where
  major : Int
  minor : Int
  patch : Int
deriving DecidableEq, Repr

/-- `s.replace(/^v/, '')`: strip a single leading lowercase `v`. -/
def stripLeadV : List Char → List Char
  | 'v' :: rest => rest
  | l => l

/-- JS `String.prototype.split` with a single-character separator:
splits on every occurrence, keeping empty groups. -/
def splitChar (c : Char) : List Char → List (List Char)
  | [] => [[]]
  | x :: xs =>
    if x = c then [] :: splitChar c xs
    else match splitChar c xs with
      | [] => [[x]]
      | g :: gs => (x :: g) :: gs

/-- `parseSemver` from the source: trim, strip one leading `v`, split on
`.`; need at least three segments (extras ignored); the third segment is
truncated at its first `-`; all three segments must convert to integers
via `Number` / `Number.isInteger`. -/
def parseSemver (v : String) : Option Semver :=
  let s := stripLeadV (jsTrim v.toList)
  match splitChar '.' s with
  | maj :: minr :: rest :: _ =>
    let patchStr := (splitChar '-' rest).headD []
    match jsNumCh maj, jsNumCh minr, jsNumCh patchStr with
    | some M, some m, some p => some ⟨M, m, p⟩
    | _, _, _ => none
  | _ => none

example : parseSemver "v1.2.3-beta" = some ⟨1, 2, 3⟩ := by decide
example : parseSemver "1.2" = none := by decide
example : parseSemver "abc" = none := by decide
example : parseSemver "-1.2.3" = some ⟨-1, 2, 3⟩ := by decide
example : parseSemver "2.5.7" = some ⟨2, 5, 7⟩ := by decide

/-- A decoded JSON value (the shapes the program receives from
`JSON.parse`).  Numbers are modelled as integers; object fields are kept
in insertion order with unique keys (as produced by JSON decoding). -/
inductive JsonV where
  | null
  | bool (b : Bool)
  | num (n : Int)
  | str (s : String)
  | arr (elems : List JsonV)
  | obj (fields : List (String × JsonV))

/-- JS truthiness of a decoded JSON value. -/
def truthy : JsonV → Bool
  | .null => false
  | .bool b => b
  | .num n => n != 0
  | .str s => s != ""
  | .arr _ => true
  | .obj _ => true

mutual
/-- JS `String(v)` / template-literal conversion of a decoded JSON value:
arrays render as their elements joined by commas, objects as
`[object Object]`. -/
def jsToString : JsonV → String
  | .null => "null"
  | .bool true => "true"
  | .bool false => "false"
  | .num n => toString n
  | .str s => s
  | .arr xs => String.intercalate "," (jsToStringElems xs)
  | .obj _ => "[object Object]"

/-- Elements of `Array.prototype.join`: `null` renders as the empty
string inside a join. -/
def jsToStringElems : List JsonV → List String
  | [] => []
  | .null :: rest => "" :: jsToStringElems rest
  | x :: rest => jsToString x :: jsToStringElems rest
end

/-- JS `===` on decoded JSON values.  Objects and arrays compare by
reference; two values decoded from one `JSON.parse` call never alias, so
distinct object/array operands are never strictly equal. -/
def jsStrictEq : JsonV → JsonV → Bool
  | .null, .null => true
  | .bool a, .bool b => a == b
  | .num a, .num b => a == b
  | .str a, .str b => a == b
  | _, _ => false

/-- Property access `o.k` on a decoded JSON object (keys unique after
decoding; first match), `none` for an absent property (`undefined`). -/
def objGet (fields : List (String × JsonV)) (k : String) : Option JsonV :=
  (fields.find? (fun p => p.1 == k)).map (·.2)

/-- `String.prototype.localeCompare`, modelled as code-point
lexicographic comparison returning -1, 0, or 1. -/
def strCompare (a b : String) : Int :=
  if a < b then -1 else if b < a then 1 else 0

/-- `parseSemver` applied to an arbitrary value: its `typeof v !==
'string'` guard returns `null` for every non-string. -/
def parseSemverJ : JsonV → Option Semver
  | .str s => parseSemver s
  | _ => none

/-- `cmpVer` from the source: parsed semvers compare major, minor, patch
by integer difference; a parsed version sorts before an unparsable one;
two unparsable values fall back to
`String(a).localeCompare(String(b))`. -/
def cmpVer (a b : JsonV) : Int :=
  match parseSemverJ a, parseSemverJ b with
  | some pa, some pb =>
    if pa.major ≠ pb.major then pa.major - pb.major
    else if pa.minor ≠ pb.minor then pa.minor - pb.minor
    else pa.patch - pb.patch
  | some _, none => -1
  | none, some _ => 1
  | none, none => strCompare (jsToString a) (jsToString b)

/-- `cmpVer` restricted to two version strings. -/
def cmpVerS (a b : String) : Int := cmpVer (.str a) (.str b)

/-- One position of the regex `\d+\.\d+\.\d+`: digits, dot, digits, dot,
digit starting exactly here.  Maximal digit runs are equivalent to the
regex's backtracking search because `.` is not a digit. -/
def semverishAt (cs : List Char) : Bool :=
  let d1 := cs.takeWhile Char.isDigit
  let r1 := cs.dropWhile Char.isDigit
  if d1.isEmpty then false
  else match r1 with
    | '.' :: r2 =>
      let d2 := r2.takeWhile Char.isDigit
      let r3 := r2.dropWhile Char.isDigit
      if d2.isEmpty then false
      else match r3 with
        | '.' :: c :: _ => c.isDigit
        | _ => false
    | _ => false

/-- `\d+\.\d+\.\d+` matches somewhere in the character list. -/
def hasSemverishCh : List Char → Bool
  | [] => false
  | c :: cs => semverishAt (c :: cs) || hasSemverishCh cs

/-- `isSemverish`: a string value containing a dotted numeric pattern. -/
def isSemverish : JsonV → Bool
  | .str s => hasSemverishCh s.toList
  | _ => false

/-- The advisory map: `Map<string, Set<string>>` in insertion order,
value sets as duplicate-free lists in insertion order. -/
abbrev AdvMap := List (String × List String)

/-- `Map.prototype.get` with an exact string key. -/
def mapGet (m : AdvMap) (n : String) : Option (List String) :=
  (m.find? (fun p => p.1 == n)).map (·.2)

/-- Insert one (name, version) fact, preserving `Map`/`Set` insertion
order; duplicate facts collapse. -/
def insertNV : AdvMap → String → String → AdvMap
  | [], n, v => [(n, [v])]
  | (k, vs) :: rest, n, v =>
    if k = n then (k, if v ∈ vs then vs else vs ++ [v]) :: rest
    else (k, vs) :: insertNV rest n v

/-- `add(name, version)` from the normalizer: skip falsy name or version,
otherwise record `String(name) → String(version)`. -/
def add (m : AdvMap) (name version : JsonV) : AdvMap :=
  if truthy name && truthy version then insertNV m (jsToString name) (jsToString version)
  else m

/-- `addMany(name, arr)`: add every element of an array value. -/
def addMany (m : AdvMap) (name : JsonV) (arr : JsonV) : AdvMap :=
  if !truthy name then m
  else match arr with
    | .arr xs => xs.foldl (fun acc v => add acc name v) m
    | _ => m

/-- JS `x || y` over possibly-absent values: the first operand if it is
present and truthy, otherwise the second. -/
def jsOr (a : Option JsonV) (b : Option JsonV) : Option JsonV :=
  match a with
  | some v => if truthy v then some v else b
  | none => b

/-- `entry.name || entry.package || entry.package_name || entry.pkg ||
entry.module || null`: the first truthy name-bearing field, else none. -/
def entryName (fields : List (String × JsonV)) : Option JsonV :=
  jsOr (objGet fields "name") (jsOr (objGet fields "package")
    (jsOr (objGet fields "package_name") (jsOr (objGet fields "pkg")
      (jsOr (objGet fields "module") none))))

/-- Lower-case one character, ASCII range. -/
def asciiLower (c : Char) : Char :=
  if 'A' ≤ c ∧ c ≤ 'Z' then Char.ofNat (c.toNat + 32) else c

/-- JS `String.prototype.toLowerCase`, restricted to the ASCII range
(the `ecosystem` comparison only ever tests against `"npm"`; JS and this
model agree on ASCII input). -/
def lowerStr (s : String) : String := String.mk (s.toList.map asciiLower)

/-- The body of `considerEntry` once a truthy name has been resolved:
union in `versions`, `affected_versions`, `affected` arrays and
`version`, `affected_version` strings, in source order. -/
def considerNamed (m : AdvMap) (fields : List (String × JsonV)) : AdvMap :=
  match entryName fields with
  | none => m
  | some name =>
    let m1 := match objGet fields "versions" with
      | some (.arr xs) => addMany m name (.arr xs)
      | _ => m
    let m2 := match objGet fields "affected_versions" with
      | some (.arr xs) => addMany m1 name (.arr xs)
      | _ => m1
    let m3 := match objGet fields "affected" with
      | some (.arr xs) => addMany m2 name (.arr xs)
      | _ => m2
    let m4 := match objGet fields "version" with
      | some (.str s) => add m3 name (.str s)
      | _ => m3
    match objGet fields "affected_version" with
      | some (.str s) => add m4 name (.str s)
      | _ => m4

/-- `considerEntry`: skip non-objects; skip the whole record when an
`ecosystem` tag is present and is not (case-insensitively) `npm`.
Arrays pass the `typeof entry === 'object'` guard in the source but have
none of the consulted properties, so they contribute nothing. -/
def considerEntry (m : AdvMap) (entry : JsonV) : AdvMap :=
  match entry with
  | .obj fields =>
    match objGet fields "ecosystem" with
    | some eco =>
      if lowerStr (jsToString eco) ≠ "npm" then m else considerNamed m fields
    | none => considerNamed m fields
  | _ => m

/-- The container keys recursed into structurally by `walkObject`. -/
def containerKey (k : String) : Bool :=
  k == "npm" || k == "packages" || k == "package" || k == "data" ||
  k == "malware" || k == "malware_predictions"

/-- The one-level heuristic scan of a nested non-container object: inner
keys whose values are non-empty arrays of version-like strings become
(inner key → versions) facts. -/
def nestedVersions (m : AdvMap) (nf : List (String × JsonV)) : AdvMap :=
  nf.foldl (fun acc p =>
    match p.2 with
    | .arr nxs =>
      if !nxs.isEmpty && nxs.all isSemverish then addMany acc (.str p.1) (.arr nxs)
      else acc
    | _ => acc) m

mutual
/-- One iteration of `walkObject`'s loop, for the entry `[k, v]`: a
non-empty all-version-like array is a (key → versions) mapping; any
other array is a sequence of candidate records; a container-named object
is recursed into; any other object is scanned one level deep; a
version-like string value is a single fact. -/
def walkEntryVal : String → JsonV → AdvMap → AdvMap
  | k, .arr xs, m =>
    if !xs.isEmpty && xs.all isSemverish then addMany m (.str k) (.arr xs)
    else xs.foldl considerEntry m
  | k, .obj nf, m =>
    if containerKey k then walkObject nf m else nestedVersions m nf
  | k, .str s, m =>
    if hasSemverishCh s.toList then add m (.str k) (.str s) else m
  | _, _, m => m

/-- `walkObject` from the normalizer, processing the object's fields in
insertion order. -/
def walkObject : List (String × JsonV) → AdvMap → AdvMap
  | [], m => m
  | (k, v) :: rest, m => walkObject rest (walkEntryVal k v m)
end

/-- `normalizeMalwareList(data)`: array input is a sequence of candidate
records; object input is walked; anything else yields the empty map. -/
def normalizeMalwareList (data : JsonV) : AdvMap :=
  match data with
  | .arr xs => xs.foldl considerEntry []
  | .obj fields => walkObject fields []
  | _ => []

example :
    normalizeMalwareList (.obj [("evil", .arr [.str "1.2.3"])]) =
      [("evil", ["1.2.3"])] := by decide
example :
    normalizeMalwareList (.arr [.obj [("name", .str "evil"), ("version", .str "1.2.3")]]) =
      [("evil", ["1.2.3"])] := by decide
example :
    normalizeMalwareList
      (.arr [.obj [("package", .str "evil"), ("versions", .arr [.str "1.2.3"]),
        ("ecosystem", .str "npm")]]) = [("evil", ["1.2.3"])] := by decide
example :
    normalizeMalwareList
      (.arr [.obj [("name", .str "x"), ("version", .str "1.0.0"),
        ("ecosystem", .str "pypi")]]) = [] := by decide
example :
    normalizeMalwareList
      (.arr [.obj [("name", .str ""), ("package", .str "evil"),
        ("version", .str "1.0.0")]]) = [("evil", ["1.0.0"])] := by decide

/-- An element of the flattener's result list, `{name, version}` pushed
with the raw (not stringified) property values. -/
structure Entry where
  name : JsonV
  version : JsonV

/-- The flattener's traversal state: the `seen` key set and the `results`
list, both in insertion order. -/
abbrev FlatSt := List String × List Entry

/-- The body of `visit` at an object node, before recursing: resolve
`node.name || inferredName` and `node.version`; when both are truthy,
emit the pair under the key `` `${name}@${version}` `` unless the key was
already seen. -/
def emitPkg (fields : List (String × JsonV)) (inferred : Option JsonV)
    (st : FlatSt) : FlatSt :=
  match jsOr (objGet fields "name") inferred, objGet fields "version" with
  | some n, some ver =>
    if truthy n && truthy ver then
      let key := jsToString n ++ "@" ++ jsToString ver
      if key ∈ st.1 then st else (key :: st.1, st.2 ++ [⟨n, ver⟩])
    else st
  | _, _ => st

mutual
/-- `visit(node, inferredName)` from `flattenPackages`: non-objects are
ignored; an object node may emit one pair and then recurses into every
entry of its `dependencies` value. -/
def visitNode : JsonV → Option JsonV → FlatSt → FlatSt
  | .obj fields, inferred, st => visitDepsOf fields (emitPkg fields inferred st)
  | _, _, st => st

/-- Locate the node's (unique) `dependencies` property and recurse into
it; structurally equal to dispatching on `objGet fields "dependencies"`
(see `visitDepsOf_eq`). -/
def visitDepsOf : List (String × JsonV) → FlatSt → FlatSt
  | [], st => st
  | (k, v) :: rest, st =>
    if k == "dependencies" then visitDeps v st else visitDepsOf rest st

/-- `node.dependencies || {}` followed by the `typeof deps === 'object'`
guard and `Object.entries`: an object yields its fields, an array its
index-keyed elements, anything else (including every falsy value, which
the source replaces by `{}`) no children. -/
def visitDeps : JsonV → FlatSt → FlatSt
  | .obj df, st => visitFields df st
  | .arr xs, st => visitElems 0 xs st
  | _, st => st

/-- Recurse into the children of a `dependencies` object, each child
visited with its key as the inferred name. -/
def visitFields : List (String × JsonV) → FlatSt → FlatSt
  | [], st => st
  | (k, c) :: rest, st => visitFields rest (visitNode c (some (.str k)) st)

/-- Recurse into the elements of a `dependencies` array; `Object.entries`
keys them by their decimal index. -/
def visitElems : Nat → List JsonV → FlatSt → FlatSt
  | _, [], st => st
  | i, x :: rest, st => visitElems (i + 1) rest (visitNode x (some (.str (toString i))) st)
end

/-- The flattener's sort comparator: strictly-equal names compare by
`cmpVer` on the versions, otherwise by `a.name.localeCompare(b.name)` —
which raises `TypeError` when `a.name` is not a string (only strings have
a `localeCompare` method; `localeCompare` stringifies its argument). -/
def entryCmp (a b : Entry) : Except String Int :=
  if jsStrictEq a.name b.name then .ok (cmpVer a.version b.version)
  else match a.name with
    | .str s => .ok (strCompare s (jsToString b.name))
    | _ => .error "TypeError: a.name.localeCompare is not a function"

/-- Insert into a sorted list, threading comparator exceptions. -/
def insertE (x : Entry) : List Entry → Except String (List Entry)
  | [] => .ok [x]
  | y :: ys =>
    match entryCmp x y with
    | .error e => .error e
    | .ok c =>
      if c ≤ 0 then .ok (x :: y :: ys)
      else match insertE x ys with
        | .error e => .error e
        | .ok r => .ok (y :: r)

/-- The host's `Array.prototype.sort` is a stable comparison sort with an
unspecified comparison schedule; it is modelled as a stable insertion
sort threading comparator exceptions.  On a comparator that is total and
consistent every stable sort produces this output, and on a two-element
list every comparison sort must compare the one pair, so the raising
behaviour at the concrete inputs below is forced. -/
def sortE : List Entry → Except String (List Entry)
  | [] => .ok []
  | x :: xs =>
    match sortE xs with
    | .error e => .error e
    | .ok s => insertE x s

/-- `tree?.name`: the root node's own name property, `undefined` for a
null or non-object root. -/
def rootInferred : JsonV → Option JsonV
  | .obj f => objGet f "name"
  | _ => none

/-- `flattenPackages(tree)`: traverse from the root with `tree?.name` as
the root's inferred name, then sort the deduplicated results. -/
def flattenPackages (tree : JsonV) : Except String (List Entry) :=
  sortE (visitNode tree (rootInferred tree) ([], [])).2

/-- Finding severity (`'critical'` / `'warning'` strings in the source). -/
inductive Level where
  | critical
  | warning
deriving DecidableEq, Repr

/-- An installed package as consumed by `scan` (names and versions of
packages emitted by the flattener on well-formed npm trees are strings;
a non-string name or version never matches any advisory key or set
member, so restricting `scan`'s input to strings loses no behaviour). -/
structure Pkg where
  name : String
  version : String
deriving DecidableEq, Repr

/-- A Finding `{level, name, version, against}`. -/
structure Finding where
  level : Level
  name : String
  version : String
  against : String
deriving DecidableEq, Repr

/-- Outcome of `scan`'s inner loop over the blocked set. -/
inductive LoopRes where
  | crit
  | warn (against : String)
  | clean
deriving DecidableEq, Repr

/-- The inner `for (const bver of blocked)` loop of `scan`, entered when
the exact-membership test failed and the installed version parsed:
a strictly-equal entry breaks with the critical flag; an entry parsing to
the same major and minor with patch distance at most `patchDistance`
breaks with a warning match; anything else continues. -/
def scanLoop (version : String) (pv : Semver) (patchDistance : Nat) :
    List String → LoopRes
  | [] => .clean
  | bver :: rest =>
    if bver = version then .crit
    else match parseSemver bver with
      | none => scanLoop version pv patchDistance rest
      | some bv =>
        if pv.major = bv.major ∧ pv.minor = bv.minor ∧
            (pv.patch - bv.patch).natAbs ≤ patchDistance then .warn bver
        else scanLoop version pv patchDistance rest

/-- One iteration of `scan`'s outer loop: the finding (if any) pushed for
one installed package.  `malwareMap.get(name)` missing skips the package
(an empty set is truthy and proceeds); exact set membership is critical
with `against` the package's own version; otherwise the inner loop runs
when the installed version parses. -/
def classify (malwareMap : AdvMap) (patchDistance : Nat) (p : Pkg) :
    Option Finding :=
  match mapGet malwareMap p.name with
  | none => none
  | some blocked =>
    if p.version ∈ blocked then some ⟨.critical, p.name, p.version, p.version⟩
    else match parseSemver p.version with
      | none => none
      | some pv =>
        match scanLoop p.version pv patchDistance blocked with
        | .crit => some ⟨.critical, p.name, p.version, p.version⟩
        | .warn b => some ⟨.warning, p.name, p.version, b⟩
        | .clean => none

/-- The findings sort comparator: criticals first, then by name
(`localeCompare`, both names strings here), then by version. -/
def findingCmp (a b : Finding) : Int :=
  if a.level ≠ b.level then (if a.level = .critical then -1 else 1)
  else if a.name ≠ b.name then strCompare a.name b.name
  else cmpVerS a.version b.version

/-- `scan(installed, malwareMap, patchDistance = 1)`: at most one finding
per installed package, then a stable sort (modelling the host's stable
`Array.prototype.sort`) by the findings comparator. -/
def scan (installed : List Pkg) (malwareMap : AdvMap)
    (patchDistance : Nat := 1) : List Finding :=
  List.insertionSort (fun a b => findingCmp a b ≤ 0)
    (installed.filterMap (classify malwareMap patchDistance))

example : scan [⟨"pkg", "2.5.6"⟩] [("pkg", ["2.5.7"])] 1 =
    [⟨.warning, "pkg", "2.5.6", "2.5.7"⟩] := by decide
example : scan [⟨"pkg", "2.5.8"⟩] [("pkg", ["2.5.7"])] 1 =
    [⟨.warning, "pkg", "2.5.8", "2.5.7"⟩] := by decide
example : scan [⟨"pkg", "2.5.9"⟩] [("pkg", ["2.5.7"])] 1 = [] := by decide
example : scan [⟨"evil", "1.2.3"⟩] [("evil", ["1.2.3"])] 1 =
    [⟨.critical, "evil", "1.2.3", "1.2.3"⟩] := by decide

example :
    flattenPackages (.obj [("name", .str "a"), ("version", .str "b@c"),
      ("dependencies", .obj [("x", .obj [("name", .str "a@b"), ("version", .str "c")])])]) =
      .ok [⟨.str "a", .str "b@c"⟩] := rfl

example :
    flattenPackages (.obj [("name", .num 1), ("version", .str "1.0.0"),
      ("dependencies", .obj [("x", .obj [("name", .num 2), ("version", .str "1.0.0")])])]) =
      .error "TypeError: a.name.localeCompare is not a function" := rfl

/-! ## Helper lemmas -/

theorem mem_of_mem_jsTrim {a : Char} {l : List Char} (h : a ∈ jsTrim l) : a ∈ l := by
  unfold jsTrim at h
  have h1 : a ∈ (l.dropWhile jsIsWs).reverse.dropWhile jsIsWs := List.mem_reverse.mp h
  have h2 : a ∈ (l.dropWhile jsIsWs).reverse := (List.dropWhile_sublist _).subset h1
  exact (List.dropWhile_sublist _).subset (List.mem_reverse.mp h2)

theorem splitChar_headD_not_mem (c : Char) (l : List Char) :
    c ∉ (splitChar c l).headD [] := by
  induction l with
  | nil => simp [splitChar]
  | cons x xs ih =>
    by_cases hx : x = c
    · simp [splitChar, hx]
    · cases hsp : splitChar c xs with
      | nil => simp [splitChar, hx, hsp, Ne.symm hx]
      | cons g gs =>
        rw [hsp] at ih
        simp only [List.headD_cons] at ih
        simp [splitChar, hx, hsp, Ne.symm hx, ih]

theorem capDouble_nonneg {v : Nat} {n : Int} (h : capDouble v = some n) : 0 ≤ n := by
  unfold capDouble at h
  split at h
  · cases h; positivity
  · cases h

theorem decimalIntValue_one_nonneg {ds : List Char} {sc : Int} {n : Int}
    (h : decimalIntValue 1 ds sc = some n) : 0 ≤ n := by
  unfold decimalIntValue at h
  split at h
  · cases h; omega
  · split at h
    · split at h
      · cases h
      · split at h
        · rename_i v hv
          cases h
          have := capDouble_nonneg hv
          omega
        · cases h
    · split at h
      · cases h
      · split at h
        · split at h
          · rename_i v hv
            cases h
            have := capDouble_nonneg hv
            omega
          · cases h
        · cases h

theorem unsignedDec_one_nonneg {cs : List Char} {n : Int}
    (h : unsignedDec 1 cs = some n) : 0 ≤ n := by
  unfold unsignedDec at h
  split at h
  · cases h
  · split at h
    · exact decimalIntValue_one_nonneg h
    · cases h

theorem signedDec_nonneg {cs : List Char} {n : Int} (hm : '-' ∉ cs)
    (h : signedDec cs = some n) : 0 ≤ n := by
  unfold signedDec at h
  split at h
  · exact unsignedDec_one_nonneg h
  · simp at hm
  · exact unsignedDec_one_nonneg h

theorem jsNumCh_nonneg {l : List Char} {n : Int} (hm : '-' ∉ l)
    (h : jsNumCh l = some n) : 0 ≤ n := by
  have hcs : '-' ∉ jsTrim l := fun hx => hm (mem_of_mem_jsTrim hx)
  simp only [jsNumCh] at h
  split at h
  · cases h; omega
  · split at h
    · split at h
      · exact capDouble_nonneg h
      · cases h
    · split at h
      · split at h
        · exact capDouble_nonneg h
        · cases h
      · split at h
        · split at h
          · exact capDouble_nonneg h
          · cases h
        · exact signedDec_nonneg hcs h
  · exact signedDec_nonneg hcs h

theorem parseSemver_patch_nonneg (v : String) (r : Semver)
    (h : parseSemver v = some r) : 0 ≤ r.patch := by
  simp only [parseSemver] at h
  split at h
  · rename_i maj minr rest tail heq
    split at h
    · rename_i M m p hM hm hp
      cases h
      exact jsNumCh_nonneg (splitChar_headD_not_mem '-' rest) hp
    · cases h
  · cases h

/-! ## C2: shape of parseSemver results -/

/-- C2: for every string `v`, `parseSemver v` is either absent or a
record of integers.  The claim's "all three components are non-negative"
holds only for the patch component (the third segment is cut at its first
`-`, so no sign can reach its numeric conversion); major and minor can be
negative, see `c2_counterexample`.  The three concrete evaluations of the
claim hold as stated. -/
theorem c2_parse_shape :
    (∀ (v : String) (r : Semver), parseSemver v = some r → 0 ≤ r.patch) ∧
    parseSemver "v1.2.3-beta" = some ⟨1, 2, 3⟩ ∧
    parseSemver "1.2" = none ∧
    parseSemver "abc" = none :=
  ⟨parseSemver_patch_nonneg, by decide, by decide, by decide⟩

/-- C2 witness: the guarded component of `c2_parse_shape` applied at the
concrete input `"1.2.3"`. -/
theorem c2_parse_shape_witness :
    parseSemver "1.2.3" = some ⟨1, 2, 3⟩ ∧ 0 ≤ (Semver.mk 1 2 3).patch :=
  ⟨by decide, c2_parse_shape.1 "1.2.3" ⟨1, 2, 3⟩ (by decide)⟩

/-- C2 counterexample: `parseSemver "-1.2.3"` succeeds with a negative
major component, refuting "all three components are non-negative
integers". -/
theorem c2_counterexample :
    parseSemver "-1.2.3" = some ⟨-1, 2, 3⟩ ∧ (Semver.mk (-1) 2 3).major < 0 :=
  ⟨by decide, by decide⟩

/-! ## C6: the three feed shapes normalize identically -/

/-- C6: the map-shaped feed, the name/version record feed, and the
package/versions/ecosystem record feed all normalize to the advisory map
with the single key `"evil"` mapped to exactly the version set
`{"1.2.3"}`. -/
theorem c6_three_shapes_normalize_equal :
    normalizeMalwareList (.obj [("evil", .arr [.str "1.2.3"])]) = [("evil", ["1.2.3"])] ∧
    normalizeMalwareList (.arr [.obj [("name", .str "evil"), ("version", .str "1.2.3")]]) =
      [("evil", ["1.2.3"])] ∧
    normalizeMalwareList (.arr [.obj [("package", .str "evil"),
      ("versions", .arr [.str "1.2.3"]), ("ecosystem", .str "npm")]]) =
      [("evil", ["1.2.3"])] :=
  ⟨by decide, by decide, by decide⟩

/-! ## C7: non-npm ecosystem records are skipped whole -/

/-- C7: a record carrying an `ecosystem` tag whose lower-cased string
form is not `"npm"` contributes nothing to the advisory map, and the
concrete pypi record normalizes to the empty map. -/
theorem c7_ecosystem_filter :
    (∀ (m : AdvMap) (fields : List (String × JsonV)) (eco : JsonV),
      objGet fields "ecosystem" = some eco →
      lowerStr (jsToString eco) ≠ "npm" →
      considerEntry m (.obj fields) = m) ∧
    normalizeMalwareList (.arr [.obj [("name", .str "x"), ("version", .str "1.0.0"),
      ("ecosystem", .str "pypi")]]) = [] := by
  refine ⟨?_, by decide⟩
  intro m fields eco h hne
  simp [considerEntry, h, hne]

/-- C7 witness: the filter applied at a concrete pypi-tagged record. -/
theorem c7_ecosystem_filter_witness :
    considerEntry [("seed", ["0.0.1"])]
      (.obj [("name", .str "x"), ("ecosystem", .str "pypi")]) =
      [("seed", ["0.0.1"])] :=
  c7_ecosystem_filter.1 [("seed", ["0.0.1"])] _ (.str "pypi") rfl (by decide)

/-! ## C8: which name-bearing field is authoritative -/

/-- The name-bearing fields consulted by the normalizer, in source order. -/
def nameKeys : List String := ["name", "package", "package_name", "pkg", "module"]

/-- Modelled from the claim's words (the refinement target being compared
against `entryName`): the first *present* name-bearing field of a record,
regardless of its value. -/
def firstPresentName (fields : List (String × JsonV)) : Option JsonV :=
  (nameKeys.filterMap (objGet fields)).head?

theorem chainOr_eq_find_truthy (l : List (Option JsonV)) :
    l.foldr jsOr none = (l.filterMap id).find? truthy := by
  induction l with
  | nil => rfl
  | cons o rest ih =>
    cases o with
    | none => simpa [jsOr] using ih
    | some v =>
      by_cases hv : truthy v
      · simp [jsOr, hv, List.find?]
      · simp [jsOr, hv, List.find?, ih]

/-- C8 counterexample: a record whose `name` field is present but empty
and whose `package` field is `"evil"`.  The claim says the first present
field (`name`, value `""`) is authoritative regardless of its value —
under which this record would contribute nothing — but the normalizer
resolves the name to `"evil"` and records the fact. -/
theorem c8_counterexample :
    firstPresentName [("name", .str ""), ("package", .str "evil"),
      ("version", .str "1.0.0")] = some (.str "") ∧
    entryName [("name", .str ""), ("package", .str "evil"),
      ("version", .str "1.0.0")] = some (.str "evil") ∧
    normalizeMalwareList (.arr [.obj [("name", .str ""), ("package", .str "evil"),
      ("version", .str "1.0.0")]]) = [("evil", ["1.0.0"])] :=
  ⟨rfl, rfl, by decide⟩

/-- C8 (amended): for every record, the normalizer treats as the
authoritative package name the first name-bearing field among `name`,
`package`, `package_name`, `pkg`, `module` whose value is truthy; fields
that are present but falsy (such as an empty string) are skipped. -/
theorem c8_first_truthy_name (fields : List (String × JsonV)) :
    entryName fields = (nameKeys.filterMap (objGet fields)).find? truthy := by
  have h := chainOr_eq_find_truthy (nameKeys.map (objGet fields))
  have h2 : (nameKeys.map (objGet fields)).filterMap id =
      nameKeys.filterMap (objGet fields) := by
    simp [List.filterMap_map]
  rw [h2] at h
  have h3 : entryName fields = (nameKeys.map (objGet fields)).foldr jsOr none := by
    simp [entryName, nameKeys]
  exact h3.trans h

/-! ## C5: the comparator is a total preorder in sign -/

theorem int_sub_sign (x y : Int) : (x - y).sign = -((y - x).sign) := by
  rcases lt_trichotomy x y with h | h | h
  · rw [Int.sign_eq_neg_one_of_neg (by omega), Int.sign_eq_one_of_pos (by omega)]
  · subst h; simp
  · rw [Int.sign_eq_one_of_pos (by omega), Int.sign_eq_neg_one_of_neg (by omega)]
    norm_num

theorem strCompare_antisym (a b : String) :
    (strCompare a b).sign = -((strCompare b a).sign) := by
  unfold strCompare
  rcases lt_trichotomy a b with h | h | h
  · simp [h, lt_asymm h]
  · subst h; simp [lt_irrefl]
  · simp [h, lt_asymm h]

theorem strCompare_neg_iff (a b : String) : strCompare a b < 0 ↔ a < b := by
  unfold strCompare
  split_ifs with h1 h2
  · simp [h1]
  · simp [lt_asymm h2]
  · simp [h1]

theorem cmpVer_sign_antisym (a b : JsonV) :
    (cmpVer a b).sign = -((cmpVer b a).sign) := by
  unfold cmpVer
  cases ha : parseSemverJ a <;> cases hb : parseSemverJ b
  · exact strCompare_antisym _ _
  · simp
  · simp
  · rename_i pa pb
    by_cases h1 : pa.major = pb.major
    · by_cases h2 : pa.minor = pb.minor
      · have h1' : ¬pb.major ≠ pa.major := by omega
        have h2' : ¬pb.minor ≠ pa.minor := by omega
        simp only [if_neg (by omega : ¬pa.major ≠ pb.major),
          if_neg (by omega : ¬pa.minor ≠ pb.minor), if_neg h1', if_neg h2']
        exact int_sub_sign _ _
      · simp only [if_neg (by omega : ¬pa.major ≠ pb.major), if_pos h2,
          if_neg (by omega : ¬pb.major ≠ pa.major),
          if_pos (by omega : pb.minor ≠ pa.minor)]
        exact int_sub_sign _ _
    · simp only [if_pos h1, if_pos (by omega : pb.major ≠ pa.major)]
      exact int_sub_sign _ _

theorem cmpVer_trans {a b c : JsonV} (h1 : cmpVer a b < 0) (h2 : cmpVer b c < 0) :
    cmpVer a c < 0 := by
  cases ha : parseSemverJ a <;> cases hb : parseSemverJ b <;> cases hc : parseSemverJ c <;>
    simp only [cmpVer, ha, hb, hc] at h1 h2 ⊢
  case none.none.none =>
    rw [strCompare_neg_iff] at h1 h2 ⊢
    exact lt_trans h1 h2
  case some.some.some pa pb pc =>
    split_ifs at h1 h2 ⊢ <;> omega
  all_goals omega

/-- C5: over version strings, the comparator's sign is antisymmetric
(`cmpVer(a,b)` and `cmpVer(b,a)` have opposite signs), its strict part is
transitive, a parsed version sorts strictly before an unparsable one, and
an unparsable one strictly after a parsed one.  (The comparator is a
total *preorder*, not an order in the strict set-theoretic sense:
distinct strings such as `"1.0.0"` and `"v1.0.0"` compare equal; the
claim's stated content — sign antisymmetry and transitivity — holds.) -/
theorem c5_cmpVer_total_preorder :
    (∀ a b : String, (cmpVerS a b).sign = -((cmpVerS b a).sign)) ∧
    (∀ a b c : String, cmpVerS a b < 0 → cmpVerS b c < 0 → cmpVerS a c < 0) ∧
    (∀ a b : String, (parseSemver a).isSome → parseSemver b = none → cmpVerS a b = -1) ∧
    (∀ a b : String, parseSemver a = none → (parseSemver b).isSome → cmpVerS a b = 1) := by
  refine ⟨fun a b => cmpVer_sign_antisym _ _, fun a b c => cmpVer_trans, ?_, ?_⟩
  · intro a b ha hb
    obtain ⟨pa, hpa⟩ := Option.isSome_iff_exists.mp ha
    unfold cmpVerS cmpVer
    simp [parseSemverJ, hpa, hb]
  · intro a b ha hb
    obtain ⟨pb, hpb⟩ := Option.isSome_iff_exists.mp hb
    unfold cmpVerS cmpVer
    simp [parseSemverJ, hpb, ha]

/-- C5 witness: transitivity and the mixed-parse cases applied at
concrete version strings. -/
theorem c5_cmpVer_total_preorder_witness :
    cmpVerS "1.0.0" "3.0.0" < 0 ∧ cmpVerS "1.0.0" "va" = -1 ∧ cmpVerS "va" "1.0.0" = 1 :=
  ⟨c5_cmpVer_total_preorder.2.1 "1.0.0" "2.0.0" "3.0.0" (by decide) (by decide),
   c5_cmpVer_total_preorder.2.2.1 "1.0.0" "va" (by decide) (by decide),
   c5_cmpVer_total_preorder.2.2.2 "va" "1.0.0" (by decide) (by decide)⟩

/-! ## Scanner lemmas for C1, C9, C10 -/

/-- The claim's step-3 qualification test over one advisory entry: equal
to the installed version string, or parsing to the same major and minor
with patch distance at most the threshold. -/
def warnMatch (pv : Semver) (t : Nat) (b : String) : Bool :=
  match parseSemver b with
  | some bv => pv.major == bv.major && pv.minor == bv.minor &&
      decide ((pv.patch - bv.patch).natAbs ≤ t)
  | none => false

theorem scanLoop_eq_find {version : String} {pv : Semver} {t : Nat} {bl : List String}
    (h : version ∉ bl) :
    scanLoop version pv t bl =
      match bl.find? (fun b => b == version || warnMatch pv t b) with
      | some b => .warn b
      | none => .clean := by
  induction bl with
  | nil => rfl
  | cons b rest ih =>
    have hb : ¬b = version := by rintro rfl; exact h (List.mem_cons_self _ _)
    have hrest : version ∉ rest := fun hx => h (List.mem_cons_of_mem _ hx)
    simp only [scanLoop, if_neg hb]
    cases hpb : parseSemver b with
    | none =>
      have hp : (b == version || warnMatch pv t b) = false := by
        simp [warnMatch, hpb, hb]
      simp only [List.find?, hp]
      exact ih hrest
    | some bv =>
      dsimp only
      split_ifs with hcond
      · have hp : (b == version || warnMatch pv t b) = true := by
          simp [warnMatch, hpb, hcond.1, hcond.2.1, hcond.2.2]
        simp only [List.find?, hp]
      · have hp : (b == version || warnMatch pv t b) = false := by
          simp only [Bool.or_eq_false_iff, beq_eq_false_iff_ne, ne_eq, hb,
            not_false_eq_true, warnMatch, hpb, true_and]
          simp only [Bool.and_eq_false_iff, beq_eq_false_iff_ne, ne_eq,
            decide_eq_false_iff_not, not_le]
          omega
        simp only [List.find?, hp]
        exact ih hrest

theorem scan_singleton (p : Pkg) (m : AdvMap) (t : Nat) :
    scan [p] m t = match classify m t p with
      | some f => [f]
      | none => [] := by
  unfold scan
  rw [List.filterMap_cons]
  cases hc : classify m t p <;>
    simp [List.filterMap_nil, List.insertionSort, List.orderedInsert]

theorem mem_scan_iff {installed : List Pkg} {m : AdvMap} {t : Nat} {f : Finding} :
    f ∈ scan installed m t ↔ ∃ p ∈ installed, classify m t p = some f := by
  unfold scan
  rw [(List.perm_insertionSort _ _).mem_iff]
  simp [List.mem_filterMap]

theorem classify_fields {m : AdvMap} {t : Nat} {p : Pkg} {f : Finding}
    (h : classify m t p = some f) : f.name = p.name ∧ f.version = p.version := by
  unfold classify at h
  split at h
  · cases h
  · split at h
    · cases h; exact ⟨rfl, rfl⟩
    · split at h
      · cases h
      · split at h
        · cases h; exact ⟨rfl, rfl⟩
        · cases h; exact ⟨rfl, rfl⟩
        · cases h

theorem scanLoop_ne_crit {version : String} {pv : Semver} {t : Nat} {bl : List String}
    (h : version ∉ bl) : scanLoop version pv t bl ≠ LoopRes.crit := by
  induction bl with
  | nil => simp [scanLoop]
  | cons b rest ih =>
    have hb : ¬b = version := by rintro rfl; exact h (List.mem_cons_self _ _)
    have hrest : version ∉ rest := fun hx => h (List.mem_cons_of_mem _ hx)
    simp only [scanLoop, if_neg hb]
    cases parseSemver b with
    | none => exact ih hrest
    | some bv =>
      dsimp only
      split_ifs with hcond
      · simp
      · exact ih hrest

theorem classify_critical_iff {m : AdvMap} {t : Nat} {p : Pkg} {f : Finding}
    (h : classify m t p = some f) :
    (f.level = .critical ↔ ∃ bl, mapGet m p.name = some bl ∧ p.version ∈ bl) := by
  unfold classify at h
  cases hmg : mapGet m p.name with
  | none => rw [hmg] at h; exact absurd h (by simp)
  | some bl =>
    rw [hmg] at h
    dsimp only at h
    by_cases hmem : p.version ∈ bl
    · rw [if_pos hmem] at h
      cases h
      simp only [true_iff]
      exact ⟨bl, rfl, hmem⟩
    · rw [if_neg hmem] at h
      cases hps : parseSemver p.version with
      | none => rw [hps] at h; exact absurd h (by simp)
      | some pv =>
        rw [hps] at h
        dsimp only at h
        cases hsl : scanLoop p.version pv t bl with
        | crit => exact absurd hsl (scanLoop_ne_crit hmem)
        | warn b =>
          rw [hsl] at h
          dsimp only at h
          cases h
          constructor
          · intro hlev; cases hlev
          · rintro ⟨bl', hbl', hmem'⟩
            cases hbl'
            exact absurd hmem' hmem
        | clean => rw [hsl] at h; exact absurd h (by simp)

theorem classify_of_member {m : AdvMap} {t : Nat} {p : Pkg}
    (h : ∃ bl, mapGet m p.name = some bl ∧ p.version ∈ bl) :
    classify m t p = some ⟨.critical, p.name, p.version, p.version⟩ := by
  obtain ⟨bl, h1, h2⟩ := h
  unfold classify
  rw [h1]
  dsimp only
  rw [if_pos h2]

/-! ## C1: matcher behaviour -/

/-- C1: for an installed package whose name keys the advisory map — if
the exact version string is a member of the advisory set, `scan` yields
the single critical finding against the package's own version; otherwise,
when the version parses, the first advisory entry that equals the
installed version or shares its major and minor with patch distance at
most the threshold determines the single warning finding (no entry: no
finding).  The claim's three concrete examples at threshold 1 hold. -/
theorem c1_matcher_behaviour :
    (∀ (name version : String) (bl : List String) (m : AdvMap) (t : Nat),
      mapGet m name = some bl →
      (version ∈ bl →
        scan [⟨name, version⟩] m t = [⟨.critical, name, version, version⟩]) ∧
      (version ∉ bl → ∀ pv, parseSemver version = some pv →
        scan [⟨name, version⟩] m t =
          match bl.find? (fun b => b == version || warnMatch pv t b) with
          | some b => [⟨.warning, name, version, b⟩]
          | none => [])) ∧
    scan [⟨"pkg", "2.5.6"⟩] [("pkg", ["2.5.7"])] 1 = [⟨.warning, "pkg", "2.5.6", "2.5.7"⟩] ∧
    scan [⟨"pkg", "2.5.8"⟩] [("pkg", ["2.5.7"])] 1 = [⟨.warning, "pkg", "2.5.8", "2.5.7"⟩] ∧
    scan [⟨"pkg", "2.5.9"⟩] [("pkg", ["2.5.7"])] 1 = [] := by
  refine ⟨?_, by decide, by decide, by decide⟩
  intro name version bl m t hbl
  constructor
  · intro hmem
    rw [scan_singleton]
    show (match classify m t ⟨name, version⟩ with
      | some f => [f] | none => []) = _
    unfold classify
    rw [hbl]
    dsimp only
    rw [if_pos hmem]
  · intro hmem pv hpv
    rw [scan_singleton]
    show (match classify m t ⟨name, version⟩ with
      | some f => [f] | none => []) = _
    unfold classify
    rw [hbl]
    dsimp only
    rw [if_neg hmem, hpv]
    dsimp only
    rw [scanLoop_eq_find hmem]
    cases List.find? (fun b => b == version || warnMatch pv t b) bl <;> rfl

/-- C1 witness: the guarded branch applied at the claim's first concrete
example. -/
theorem c1_matcher_behaviour_witness :
    scan [⟨"pkg", "2.5.6"⟩] [("pkg", ["2.5.7"])] 1 =
      match ["2.5.7"].find? (fun b => b == "2.5.6" || warnMatch ⟨2, 5, 6⟩ 1 b) with
      | some b => [⟨.warning, "pkg", "2.5.6", b⟩]
      | none => [] :=
  (c1_matcher_behaviour.1 "pkg" "2.5.6" ["2.5.7"] [("pkg", ["2.5.7"])] 1 rfl).2
    (by decide) ⟨2, 5, 6⟩ (by decide)

/-! ## C9: unparsable versions without exact match yield no finding -/

/-- C9: a package whose version string does not parse and is not an
exact member of its advisory set contributes no finding to `scan`'s
output, whatever else the advisory set for its name contains. -/
theorem c9_unparsable_clean :
    ∀ (installed : List Pkg) (m : AdvMap) (t : Nat) (name version : String),
      parseSemver version = none →
      (∀ bl, mapGet m name = some bl → version ∉ bl) →
      ∀ f ∈ scan installed m t, ¬(f.name = name ∧ f.version = version) := by
  intro installed m t name version hparse hnm f hf hcontra
  obtain ⟨p, hp, hcl⟩ := mem_scan_iff.mp hf
  obtain ⟨e1, e2⟩ := classify_fields hcl
  have hpn : p.name = name := by rw [← e1, hcontra.1]
  have hpv : p.version = version := by rw [← e2, hcontra.2]
  unfold classify at hcl
  cases hmg : mapGet m p.name with
  | none => rw [hmg] at hcl; exact absurd hcl (by simp)
  | some bl =>
    rw [hmg] at hcl
    dsimp only at hcl
    have hnmem : p.version ∉ bl := by
      rw [hpv]; exact hnm bl (hpn ▸ hmg)
    have hpp : parseSemver p.version = none := by rw [hpv]; exact hparse
    rw [if_neg hnmem, hpp] at hcl
    exact absurd hcl (by simp)

/-- C9 witness: applied at a concrete scan whose single finding belongs
to a different package than the unparsable one. -/
theorem c9_unparsable_clean_witness :
    ¬((Finding.mk .critical "evil" "1.2.3" "1.2.3").name = "x" ∧
      (Finding.mk .critical "evil" "1.2.3" "1.2.3").version = "abc") :=
  c9_unparsable_clean [⟨"x", "abc"⟩, ⟨"evil", "1.2.3"⟩]
    [("x", ["1.0.0"]), ("evil", ["1.2.3"])] 1 "x" "abc" (by decide)
    (by intro bl hbl hmem
        have heq : ["1.0.0"] = bl := by
          simpa [mapGet, List.find?] using hbl
        subst heq
        simp at hmem)
    ⟨.critical, "evil", "1.2.3", "1.2.3"⟩ (by decide)

/-! ## C10: critical iff exact membership; in-loop promotion unreachable -/

/-- C10: a finding of `scan` is critical exactly when the installed
version string is a member of the advisory set for its name; every
package with such a membership yields its critical finding; and the
in-loop promotion arm is unreachable — the loop never returns the
critical outcome, because it only runs when set membership of the same
string already tested negative. -/
theorem c10_critical_iff_membership :
    (∀ (installed : List Pkg) (m : AdvMap) (t : Nat) (f : Finding),
      f ∈ scan installed m t →
      (f.level = .critical ↔ ∃ bl, mapGet m f.name = some bl ∧ f.version ∈ bl)) ∧
    (∀ (installed : List Pkg) (m : AdvMap) (t : Nat) (p : Pkg), p ∈ installed →
      (∃ bl, mapGet m p.name = some bl ∧ p.version ∈ bl) →
      Finding.mk .critical p.name p.version p.version ∈ scan installed m t) ∧
    (∀ (version : String) (pv : Semver) (t : Nat) (bl : List String),
      version ∉ bl → scanLoop version pv t bl ≠ LoopRes.crit) := by
  refine ⟨?_, ?_, fun version pv t bl h => scanLoop_ne_crit h⟩
  · intro installed m t f hf
    obtain ⟨p, hp, hcl⟩ := mem_scan_iff.mp hf
    obtain ⟨e1, e2⟩ := classify_fields hcl
    rw [e1, e2]
    exact classify_critical_iff hcl
  · intro installed m t p hp hmem
    exact mem_scan_iff.mpr ⟨p, hp, classify_of_member hmem⟩

/-- C10 witness: the membership direction applied at a concrete critical
hit. -/
theorem c10_critical_iff_membership_witness :
    Finding.mk .critical "evil" "1.2.3" "1.2.3" ∈
      scan [⟨"evil", "1.2.3"⟩] [("evil", ["1.2.3"])] 1 :=
  c10_critical_iff_membership.2.1 [⟨"evil", "1.2.3"⟩] [("evil", ["1.2.3"])] 1
    ⟨"evil", "1.2.3"⟩ (by decide) ⟨["1.2.3"], rfl, by decide⟩

/-! ## Flattener machinery for C3 and C4 -/

/-- The dedup key `` `${name}@${version}` `` of an emitted entry. -/
def entryKey (e : Entry) : String :=
  jsToString e.name ++ "@" ++ jsToString e.version

/-- First-occurrence deduplication of a key sequence against an
already-seen key list. -/
def firstDedup (seen : List String) : List String → List String
  | [] => []
  | k :: rest => if k ∈ seen then firstDedup seen rest else k :: firstDedup (k :: seen) rest

/-- The key the flattener would emit at one node position (if the node
qualifies), before deduplication: the observation sequence of §4.4. -/
def obsEmit (fields : List (String × JsonV)) (inferred : Option JsonV) : List String :=
  match jsOr (objGet fields "name") inferred, objGet fields "version" with
  | some n, some ver =>
    if truthy n && truthy ver then [jsToString n ++ "@" ++ jsToString ver] else []
  | _, _ => []

mutual
/-- All (name, version) keys observed during the traversal from a node,
in traversal order, without deduplication. -/
def obsNode : JsonV → Option JsonV → List String
  | .obj fields, inferred => obsEmit fields inferred ++ obsDepsOf fields
  | _, _ => []

/-- Observation sequence of a node's `dependencies` property. -/
def obsDepsOf : List (String × JsonV) → List String
  | [] => []
  | (k, v) :: rest => if k == "dependencies" then obsDeps v else obsDepsOf rest

/-- Observation sequence of a `dependencies` value. -/
def obsDeps : JsonV → List String
  | .obj df => obsFields df
  | .arr xs => obsElems 0 xs
  | _ => []

/-- Observation sequence of a `dependencies` object's children. -/
def obsFields : List (String × JsonV) → List String
  | [] => []
  | (k, c) :: rest => obsNode c (some (.str k)) ++ obsFields rest

/-- Observation sequence of a `dependencies` array's elements. -/
def obsElems : Nat → List JsonV → List String
  | _, [] => []
  | i, x :: rest => obsNode x (some (.str (toString i))) ++ obsElems (i + 1) rest
end

/-- One traversal step takes the state `st` to `st'` while observing the
key sequence `o`: the seen set gains exactly the fresh keys of `o` (in
reverse, as they are consed) and the results gain entries keyed by the
first-occurrence dedup of `o` against the incoming seen set. -/
def VisitSpec (o : List String) (st st' : FlatSt) : Prop :=
  ∃ E, st' = ((firstDedup st.1 o).reverse ++ st.1, st.2 ++ E) ∧
    E.map entryKey = firstDedup st.1 o

theorem firstDedup_congr {s1 s2 : List String} (h : ∀ k, k ∈ s1 ↔ k ∈ s2) :
    ∀ l, firstDedup s1 l = firstDedup s2 l := by
  intro l
  induction l generalizing s1 s2 with
  | nil => rfl
  | cons k rest ih =>
    by_cases hk : k ∈ s1
    · rw [firstDedup, if_pos hk, firstDedup, if_pos ((h k).mp hk)]
      exact ih h
    · rw [firstDedup, if_neg hk, firstDedup, if_neg (fun hx => hk ((h k).mpr hx))]
      congr 1
      exact ih (fun j => by simp only [List.mem_cons, h j])

theorem firstDedup_append (s a b : List String) :
    firstDedup s (a ++ b) = firstDedup s a ++ firstDedup (firstDedup s a ++ s) b := by
  induction a generalizing s with
  | nil => simp [firstDedup]
  | cons k a ih =>
    by_cases hk : k ∈ s
    · rw [List.cons_append, firstDedup, if_pos hk, firstDedup, if_pos hk, ih]
    · rw [List.cons_append, firstDedup, if_neg hk, firstDedup, if_neg hk, ih (k :: s),
        List.cons_append]
      congr 1
      congr 1
      exact firstDedup_congr (fun j => by
        simp only [List.mem_append, List.mem_cons]
        tauto) b

theorem firstDedup_nodup (s : List String) (l : List String) :
    (firstDedup s l).Nodup ∧ ∀ k ∈ firstDedup s l, k ∉ s := by
  induction l generalizing s with
  | nil => simp [firstDedup]
  | cons k rest ih =>
    by_cases hk : k ∈ s
    · rw [firstDedup, if_pos hk]
      exact ih s
    · rw [firstDedup, if_neg hk]
      obtain ⟨hnd, hns⟩ := ih (k :: s)
      refine ⟨List.nodup_cons.mpr ⟨fun hx => (hns k hx) (List.mem_cons_self _ _), hnd⟩, ?_⟩
      intro j hj
      rcases List.mem_cons.mp hj with rfl | hj'
      · exact hk
      · exact fun hjs => hns j hj' (List.mem_cons_of_mem _ hjs)

theorem visitSpec_nil (st : FlatSt) : VisitSpec [] st st :=
  ⟨[], by simp [firstDedup], by simp [firstDedup]⟩

theorem visitSpec_comp {o1 o2 : List String} {st st1 st2 : FlatSt}
    (h1 : VisitSpec o1 st st1) (h2 : VisitSpec o2 st1 st2) :
    VisitSpec (o1 ++ o2) st st2 := by
  obtain ⟨E1, he1, hk1⟩ := h1
  obtain ⟨E2, he2, hk2⟩ := h2
  rw [he1] at he2 hk2
  dsimp only at he2 hk2
  have hmem : ∀ j, j ∈ (firstDedup st.1 o1).reverse ++ st.1 ↔
      j ∈ firstDedup st.1 o1 ++ st.1 := by
    intro j; simp [List.mem_append, List.mem_reverse, or_comm]
  have hco : firstDedup ((firstDedup st.1 o1).reverse ++ st.1) o2 =
      firstDedup (firstDedup st.1 o1 ++ st.1) o2 := firstDedup_congr hmem o2
  refine ⟨E1 ++ E2, ?_, ?_⟩
  · rw [he2, firstDedup_append, hco]
    simp [List.reverse_append, List.append_assoc]
  · rw [List.map_append, hk1, hk2, hco, firstDedup_append]

theorem emitPkg_spec (fields : List (String × JsonV)) (inferred : Option JsonV)
    (st : FlatSt) : VisitSpec (obsEmit fields inferred) st (emitPkg fields inferred st) := by
  unfold emitPkg obsEmit
  cases hn : jsOr (objGet fields "name") inferred with
  | none => exact visitSpec_nil st
  | some n =>
    cases hv : objGet fields "version" with
    | none => exact visitSpec_nil st
    | some ver =>
      dsimp only
      cases ht : truthy n && truthy ver with
      | false => simp only [Bool.false_eq_true, if_false]; exact visitSpec_nil st
      | true =>
        simp only [if_true]
        by_cases hk : (jsToString n ++ "@" ++ jsToString ver) ∈ st.1
        · rw [if_pos hk]
          exact ⟨[], by simp [firstDedup, hk], by simp [firstDedup, hk]⟩
        · rw [if_neg hk]
          exact ⟨[⟨n, ver⟩], by simp [firstDedup, hk], by simp [firstDedup, hk, entryKey]⟩

mutual
/-- The traversal from a node observes exactly `obsNode` and transforms
the state according to `VisitSpec`. -/
theorem visitNode_spec : ∀ (n : JsonV) (i : Option JsonV) (st : FlatSt),
    VisitSpec (obsNode n i) st (visitNode n i st)
  | .obj fields, i, st =>
    visitSpec_comp (emitPkg_spec fields i st)
      (visitDepsOf_spec fields (emitPkg fields i st))
  | .null, _, st => visitSpec_nil st
  | .bool _, _, st => visitSpec_nil st
  | .num _, _, st => visitSpec_nil st
  | .str _, _, st => visitSpec_nil st
  | .arr _, _, st => visitSpec_nil st

/-- `VisitSpec` characterization of `visitDepsOf`. -/
theorem visitDepsOf_spec : ∀ (fields : List (String × JsonV)) (st : FlatSt),
    VisitSpec (obsDepsOf fields) st (visitDepsOf fields st)
  | [], st => visitSpec_nil st
  | (k, v) :: rest, st => by
    show VisitSpec (if k == "dependencies" then obsDeps v else obsDepsOf rest) st
      (if k == "dependencies" then visitDeps v st else visitDepsOf rest st)
    by_cases hk : (k == "dependencies") = true
    · rw [if_pos hk, if_pos hk]
      exact visitDeps_spec v st
    · rw [if_neg hk, if_neg hk]
      exact visitDepsOf_spec rest st

/-- `VisitSpec` characterization of `visitDeps`. -/
theorem visitDeps_spec : ∀ (d : JsonV) (st : FlatSt),
    VisitSpec (obsDeps d) st (visitDeps d st)
  | .obj df, st => visitFields_spec df st
  | .arr xs, st => visitElems_spec 0 xs st
  | .null, st => visitSpec_nil st
  | .bool _, st => visitSpec_nil st
  | .num _, st => visitSpec_nil st
  | .str _, st => visitSpec_nil st

/-- `VisitSpec` characterization of `visitFields`. -/
theorem visitFields_spec : ∀ (df : List (String × JsonV)) (st : FlatSt),
    VisitSpec (obsFields df) st (visitFields df st)
  | [], st => visitSpec_nil st
  | (k, c) :: rest, st =>
    visitSpec_comp (visitNode_spec c (some (.str k)) st)
      (visitFields_spec rest (visitNode c (some (.str k)) st))

/-- `VisitSpec` characterization of `visitElems`. -/
theorem visitElems_spec : ∀ (i : Nat) (xs : List JsonV) (st : FlatSt),
    VisitSpec (obsElems i xs) st (visitElems i xs st)
  | _, [], st => visitSpec_nil st
  | i, x :: rest, st =>
    visitSpec_comp (visitNode_spec x (some (.str (toString i))) st)
      (visitElems_spec (i + 1) rest (visitNode x (some (.str (toString i))) st))
end

theorem visit_results_keys (tree : JsonV) :
    ((visitNode tree (rootInferred tree) ([], [])).2).map entryKey =
      firstDedup [] (obsNode tree (rootInferred tree)) := by
  obtain ⟨E, he, hk⟩ := visitNode_spec tree (rootInferred tree) ([], [])
  rw [he]
  simpa using hk

theorem beqComm {α : Type} [BEq α] [LawfulBEq α] (a b : α) : (a == b) = (b == a) := by
  by_cases h : a = b
  · subst h; rfl
  · rw [beq_eq_false_iff_ne.mpr h, beq_eq_false_iff_ne.mpr (Ne.symm h)]

theorem jsStrictEq_symm (a b : JsonV) : jsStrictEq a b = jsStrictEq b a := by
  cases a <;> cases b <;> first | rfl | exact beqComm _ _

theorem sign_flip_neg {x y : Int} (h : x.sign = -y.sign) (hx : 0 < x) : y < 0 := by
  rw [Int.sign_eq_one_of_pos hx] at h
  rcases lt_trichotomy y 0 with h0 | h0 | h0
  · exact h0
  · subst h0; simp at h
  · rw [Int.sign_eq_one_of_pos h0] at h; omega

theorem strCompare_pos_flip {s t : String} (h : 0 < strCompare s t) :
    strCompare t s = -1 := by
  unfold strCompare at h ⊢
  split_ifs at h ⊢ <;> first | rfl | omega

theorem entryCmp_flip {x y : Entry} {c : Int} (h : entryCmp x y = .ok c) (hc : 0 < c) :
    ∀ c', entryCmp y x = .ok c' → c' ≤ 0 := by
  intro c' h'
  unfold entryCmp at h h'
  by_cases hse : jsStrictEq x.name y.name = true
  · rw [if_pos hse] at h
    rw [if_pos ((jsStrictEq_symm y.name x.name).trans hse)] at h'
    cases h; cases h'
    have hs := cmpVer_sign_antisym x.version y.version
    exact le_of_lt (sign_flip_neg hs hc)
  · rw [if_neg hse] at h
    rw [if_neg (fun hh => hse ((jsStrictEq_symm x.name y.name).trans hh))] at h'
    cases hxn : x.name <;> rw [hxn] at h
    · exact Except.noConfusion h
    · exact Except.noConfusion h
    · exact Except.noConfusion h
    · rename_i s
      cases hyn : y.name <;> rw [hyn] at h'
      · exact Except.noConfusion h'
      · exact Except.noConfusion h'
      · exact Except.noConfusion h'
      · rename_i t
        rw [hyn] at h
        rw [hxn] at h'
        simp only [jsToString] at h h'
        cases h; cases h'
        have h2 : strCompare t s = -1 := strCompare_pos_flip hc
        rw [h2]
        norm_num
      · exact Except.noConfusion h'
      · exact Except.noConfusion h'
    · exact Except.noConfusion h
    · exact Except.noConfusion h

theorem insertE_head {x : Entry} {s r : List Entry} (h : insertE x s = .ok r) :
    ∃ z rest, r = z :: rest ∧ (z = x ∨ s.head? = some z) := by
  cases s with
  | nil =>
    cases h
    exact ⟨x, [], rfl, Or.inl rfl⟩
  | cons y ys =>
    unfold insertE at h
    cases hc : entryCmp x y with
    | error e => rw [hc] at h; exact Except.noConfusion h
    | ok c =>
      rw [hc] at h
      dsimp only at h
      by_cases hle : c ≤ 0
      · rw [if_pos hle] at h; cases h; exact ⟨x, _, rfl, Or.inl rfl⟩
      · rw [if_neg hle] at h
        cases hr : insertE x ys with
        | error e => rw [hr] at h; exact Except.noConfusion h
        | ok r' => rw [hr] at h; dsimp only at h; cases h; exact ⟨y, r', rfl, Or.inr rfl⟩

theorem insertE_perm {x : Entry} {s r : List Entry} (h : insertE x s = .ok r) :
    r.Perm (x :: s) := by
  induction s generalizing r with
  | nil => cases h; exact List.Perm.refl _
  | cons y ys ih =>
    unfold insertE at h
    cases hc : entryCmp x y with
    | error e => rw [hc] at h; exact Except.noConfusion h
    | ok c =>
      rw [hc] at h
      dsimp only at h
      by_cases hle : c ≤ 0
      · rw [if_pos hle] at h; cases h; exact List.Perm.refl _
      · rw [if_neg hle] at h
        cases hr : insertE x ys with
        | error e => rw [hr] at h; exact Except.noConfusion h
        | ok r' =>
          rw [hr] at h; dsimp only at h; cases h
          exact ((ih hr).cons y).trans (List.Perm.swap x y ys)

theorem sortE_perm {l r : List Entry} (h : sortE l = .ok r) : r.Perm l := by
  induction l generalizing r with
  | nil => cases h; exact List.Perm.refl _
  | cons x xs ih =>
    unfold sortE at h
    cases hs : sortE xs with
    | error e => rw [hs] at h; exact Except.noConfusion h
    | ok s =>
      rw [hs] at h
      dsimp only at h
      exact (insertE_perm h).trans ((ih hs).cons x)

/-- The sortedness relation read off the comparator: whenever the
comparator evaluates without raising, its value is non-positive. -/
def entryLe (a b : Entry) : Prop := ∀ c, entryCmp a b = .ok c → c ≤ 0

theorem insertE_sorted {x : Entry} {s r : List Entry} (hs : List.Chain' entryLe s)
    (h : insertE x s = .ok r) : List.Chain' entryLe r := by
  induction s generalizing r with
  | nil => cases h; simp
  | cons y ys ih =>
    unfold insertE at h
    cases hc : entryCmp x y with
    | error e => rw [hc] at h; exact Except.noConfusion h
    | ok c =>
      rw [hc] at h
      dsimp only at h
      by_cases hle : c ≤ 0
      · rw [if_pos hle] at h; cases h
        refine List.chain'_cons.mpr ⟨?_, hs⟩
        intro c' h'
        rw [hc] at h'; cases h'; exact hle
      · rw [if_neg hle] at h
        cases hr : insertE x ys with
        | error e => rw [hr] at h; exact Except.noConfusion h
        | ok r' =>
          rw [hr] at h; dsimp only at h; cases h
          have hr'c := ih (List.Chain'.tail hs) hr
          refine List.chain'_cons'.mpr ⟨?_, hr'c⟩
          intro z hz
          obtain ⟨z', rest', hrr, hzc⟩ := insertE_head hr
          rw [hrr] at hz
          simp only [List.head?_cons, Option.mem_def, Option.some.injEq] at hz
          subst hz
          rcases hzc with rfl | hhd
          · exact entryCmp_flip hc (by omega)
          · exact (List.chain'_cons'.mp hs).1 z' hhd

theorem sortE_sorted {l r : List Entry} (h : sortE l = .ok r) :
    List.Chain' entryLe r := by
  induction l generalizing r with
  | nil => cases h; simp
  | cons x xs ih =>
    unfold sortE at h
    cases hs : sortE xs with
    | error e => rw [hs] at h; exact Except.noConfusion h
    | ok s =>
      rw [hs] at h
      dsimp only at h
      exact insertE_sorted (ih hs) h

theorem entryCmp_ok_of_str {x : Entry} (hx : ∃ n, x.name = JsonV.str n) (y : Entry) :
    ∃ c, entryCmp x y = .ok c := by
  obtain ⟨n, hn⟩ := hx
  unfold entryCmp
  by_cases hse : jsStrictEq x.name y.name = true
  · rw [if_pos hse]; exact ⟨_, rfl⟩
  · rw [if_neg hse, hn]; exact ⟨_, rfl⟩

theorem insertE_ok {x : Entry} (hx : ∃ n, x.name = JsonV.str n) (s : List Entry) :
    ∃ r, insertE x s = .ok r := by
  induction s with
  | nil => exact ⟨[x], rfl⟩
  | cons y ys ih =>
    obtain ⟨c, hc⟩ := entryCmp_ok_of_str hx y
    unfold insertE
    rw [hc]
    dsimp only
    by_cases hle : c ≤ 0
    · rw [if_pos hle]; exact ⟨_, rfl⟩
    · rw [if_neg hle]
      obtain ⟨r', hr'⟩ := ih
      rw [hr']
      exact ⟨_, rfl⟩

theorem sortE_ok {l : List Entry} (h : ∀ e ∈ l, ∃ n, e.name = JsonV.str n) :
    ∃ r, sortE l = .ok r := by
  induction l with
  | nil => exact ⟨[], rfl⟩
  | cons x xs ih =>
    obtain ⟨s, hs⟩ := ih (fun e he => h e (List.mem_cons_of_mem _ he))
    unfold sortE
    rw [hs]
    dsimp only
    exact insertE_ok (h x (List.mem_cons_self _ _)) s

/-! ## C3: the flattened list is deduplicated and sorted -/

/-- C3 (amended): when `flattenPackages` returns a list, that list (i)
carries exactly one entry per distinct `` `${name}@${version}` `` key
observed in the graph — its key sequence is a permutation of the
first-occurrence dedup of the observed key sequence — (ii) contains no
duplicate (name, version) pairs, and (iii) is sorted under the
comparator (every adjacent comparison that evaluates is non-positive).
Deduplication is by the concatenated key, not by the pair, so two
distinct pairs with equal concatenations collapse
(see `c3_counterexample`). -/
theorem c3_flatten_dedup_sorted :
    ∀ (tree : JsonV) (l : List Entry), flattenPackages tree = .ok l →
      (l.map entryKey).Perm (firstDedup [] (obsNode tree (rootInferred tree))) ∧
      List.Pairwise (fun a b => ¬(a.name = b.name ∧ a.version = b.version)) l ∧
      List.Chain' entryLe l := by
  intro tree l h
  unfold flattenPackages at h
  have hperm : l.Perm (visitNode tree (rootInferred tree) ([], [])).2 := sortE_perm h
  have hkperm : (l.map entryKey).Perm
      (firstDedup [] (obsNode tree (rootInferred tree))) := by
    rw [← visit_results_keys tree]
    exact hperm.map entryKey
  refine ⟨hkperm, ?_, sortE_sorted h⟩
  have hnd : (l.map entryKey).Nodup :=
    hkperm.nodup_iff.mpr (firstDedup_nodup [] _).1
  have hpair : List.Pairwise (fun a b => entryKey a ≠ entryKey b) l :=
    List.pairwise_map.mp hnd
  exact hpair.imp (fun hne hab => hne (by
    unfold entryKey
    rw [hab.1, hab.2]))

/-- C3 witness: the characterization applied at a one-package tree. -/
theorem c3_flatten_dedup_sorted_witness :
    (([Entry.mk (.str "a") (.str "1.0.0")].map entryKey).Perm
      (firstDedup [] (obsNode (.obj [("name", .str "a"), ("version", .str "1.0.0")])
        (rootInferred (.obj [("name", .str "a"), ("version", .str "1.0.0")]))))) ∧
    List.Pairwise (fun a b => ¬(a.name = b.name ∧ a.version = b.version))
      [Entry.mk (.str "a") (.str "1.0.0")] ∧
    List.Chain' entryLe [Entry.mk (.str "a") (.str "1.0.0")] :=
  c3_flatten_dedup_sorted (.obj [("name", .str "a"), ("version", .str "1.0.0")])
    [Entry.mk (.str "a") (.str "1.0.0")] rfl

/-- C3 counterexample: two distinct (name, version) pairs —
`("a", "b@c")` at the root and `("a@b", "c")` at its dependency — share
the dedup key `"a@b@c"`, so the flattener emits only the first; the
claim's "exactly one entry per distinct (name, version) pair observed"
fails at this input. -/
theorem c3_counterexample :
    flattenPackages (.obj [("name", .str "a"), ("version", .str "b@c"),
      ("dependencies", .obj [("x", .obj [("name", .str "a@b"), ("version", .str "c")])])]) =
      .ok [Entry.mk (.str "a") (.str "b@c")] ∧
    (Entry.mk (.str "a@b") (.str "c") ∈ [Entry.mk (.str "a") (.str "b@c")] → False) := by
  refine ⟨rfl, ?_⟩
  intro h
  rw [List.mem_singleton] at h
  injection h with h1 h2
  injection h1 with h1'
  exact absurd h1' (by decide)

/-! ## C4: totality of the normalizer and the flattener -/

/-- C4 (amended): `flattenPackages` returns a list — never raises —
whenever every entry emitted by the traversal carries a string name
(as on every well-formed npm tree); `normalizeMalwareList` is a total
function of the model by construction, using no partial host operation.
When two emitted entries carry non-string names the sort comparator
raises `TypeError`, see `c4_counterexample`. -/
theorem c4_flatten_total_on_string_names :
    ∀ tree : JsonV,
      (∀ e ∈ (visitNode tree (rootInferred tree) ([], [])).2, ∃ n, e.name = JsonV.str n) →
      ∃ l, flattenPackages tree = .ok l := by
  intro tree h
  unfold flattenPackages
  exact sortE_ok h

/-- C4 witness: totality applied at a one-package tree with a string
name. -/
theorem c4_flatten_total_on_string_names_witness :
    ∃ l, flattenPackages (.obj [("name", .str "a"), ("version", .str "1.0.0")]) = .ok l :=
  c4_flatten_total_on_string_names (.obj [("name", .str "a"), ("version", .str "1.0.0")])
    (by
      intro e he
      have hres : (visitNode (.obj [("name", .str "a"), ("version", .str "1.0.0")])
          (rootInferred (.obj [("name", .str "a"), ("version", .str "1.0.0")]))
          ([], [])).2 = [Entry.mk (.str "a") (.str "1.0.0")] := rfl
      rw [hres, List.mem_singleton] at he
      subst he
      exact ⟨"a", rfl⟩)

/-- C4 counterexample: a dependency tree whose two nodes carry the
number names `1` and `2` reaches the sort comparator with two non-string,
non-strictly-equal names; `a.name.localeCompare` is not a function there
and the flattener raises instead of returning a list. -/
theorem c4_counterexample :
    flattenPackages (.obj [("name", .num 1), ("version", .str "1.0.0"),
      ("dependencies", .obj [("x", .obj [("name", .num 2), ("version", .str "1.0.0")])])]) =
      .error "TypeError: a.name.localeCompare is not a function" := rfl
